import Mathlib

/-!
Verification of the ai-reminder core: a shallow embedding in Lean 4 of the
message cache (src/cache_manager.py), the LLM client's sanitization and
retry logic (src/llm_client.py), and the reminder scheduler
(src/scheduler.py), together with theorems settling the specification
claims about them.

Strings are modelled as `List Char`; the two durable JSON files are
modelled as the state `CMState`.  Storage-write faults are modelled by a
boolean `wf` ("writes fail"): when `wf = true` every durable write raises,
as `_write_cache` / `_write_sent` re-raise after logging.  A failing write
never mutates the file, so in any `except` branch reached because `wf =
true` the observable state is the state at the raise point.
-/

namespace AIRem

/-- The whitespace characters stripped by Python `str.strip()` (ASCII range). -/
def isPySpace (c : Char) : Bool :=
  c = ' ' || c = '\t' || c = '\n' || c = '\r' || c = Char.ofNat 11 || c = Char.ofNat 12

/-- Python `str.strip()`: drop leading and trailing whitespace. -/
def strip (s : List Char) : List Char :=
  ((s.dropWhile isPySpace).reverse.dropWhile isPySpace).reverse

/-- `startsWithL pat s` : does `s` begin with `pat`? -/
def startsWithL : List Char → List Char → Bool
  | [], _ => true
  | _ :: _, [] => false
  | p :: ps, c :: cs => p = c && startsWithL ps cs

/-- Python `pat in s` for strings: substring containment. -/
def containsSub (pat : List Char) : List Char → Bool
  | [] => startsWithL pat []
  | c :: cs => startsWithL pat (c :: cs) || containsSub pat cs

/-! ## Cache manager (src/cache_manager.py)

A raw JSON record read from `messages.json` / `sent_messages.json`.  The
shapes rejected by `_read_cache`'s per-entry validation are explicit
constructors. -/

inductive RawEntry
  /-- An array element that is not a JSON object. -/
  | notDict
  /-- An object with no `"message"` key. -/
  | noMessageKey
  /-- An object whose `"message"` value is not a string. -/
  | nonStringMessage
  /-- A proper record `{ message, timestamp }`. -/
  | entry (message : List Char) (timestamp : List Char)
deriving DecidableEq, Repr

/-- The per-entry validation performed inside `_read_cache` (lines 67-85):
keep the entry iff it is a dict with a string `"message"` that is non-empty
after stripping. -/
def isValidEntry : RawEntry → Bool
  | .entry m _ => !(strip m).isEmpty
  | _ => false

/-- The durable state: contents of `messages.json` and `sent_messages.json`.
`none` models a file that fails to parse as a JSON list (decode error or a
non-list value) — `_read_cache` treats both identically. -/
structure CMState where
  cacheFile : Option (List RawEntry)
  sentFile : Option (List RawEntry)
deriving DecidableEq, Repr

/-- `_write_cache`: rewrite `messages.json`; re-raises on failure (`wf = true`). -/
def write_cache (wf : Bool) (l : List RawEntry) (st : CMState) : Except Unit CMState :=
  if wf then .error () else .ok { st with cacheFile := some l }

/-- `_write_sent`: rewrite `sent_messages.json`; re-raises on failure (`wf = true`). -/
def write_sent (wf : Bool) (l : List RawEntry) (st : CMState) : Except Unit CMState :=
  if wf then .error () else .ok { st with sentFile := some l }

/-- `_read_cache`: parse failures yield `[]`; otherwise filter invalid
entries, and if any were dropped persist the cleaned list back
(self-healing read).  The cleanup write can raise. -/
def read_cache (wf : Bool) (st : CMState) : Except Unit (List RawEntry × CMState) :=
  match st.cacheFile with
  | none => .ok ([], st)
  | some l =>
    let valid := l.filter isValidEntry
    if valid.length < l.length then
      match write_cache wf valid st with
      | .error e => .error e
      | .ok st' => .ok (valid, st')
    else .ok (valid, st)

/-- `_read_sent`: return the parsed list, or `[]` on a parse failure. -/
def read_sent (st : CMState) : List RawEntry :=
  match st.sentFile with
  | none => []
  | some l => l

/-- `add_message`: validate, append `{message: stripped, timestamp}`, persist.
Each `.error` arm is the `except` branch returning `False` with the state at
the raise point (a failing write does not mutate the file). -/
def add_message (wf : Bool) (message ts : List Char) (st : CMState) : Bool × CMState :=
  if message.isEmpty then (false, st)
  else if (strip message).isEmpty then (false, st)
  else
    match read_cache wf st with
    | .error _ => (false, st)
    | .ok (cache, st₁) =>
      match write_cache wf (cache ++ [RawEntry.entry (strip message) ts]) st₁ with
      | .error _ => (false, st₁)
      | .ok st₂ => (true, st₂)

/-- The skip-invalid-entry path of `get_oldest_message` (lines 244-257):
persist the popped list, then recurse if entries remain. -/
def skipEntry (wf : Bool) (recurse : CMState → Option (List Char) × CMState)
    (rest : List RawEntry) (st₁ : CMState) : Option (List Char) × CMState :=
  match write_cache wf rest st₁ with
  | .error _ => (none, st₁)
  | .ok st₂ => if rest.isEmpty then (none, st₂) else recurse st₂

/-- `get_oldest_message`, with an explicit fuel bounding the recursion depth
(the Python recursion removes one entry per level).  `(none, ·)` arms on
`notDict` / `noMessageKey` are the `except` branch: subscripting those
records raises.  These arms are unreachable after `read_cache` filtering. -/
def get_oldest_message_aux (wf : Bool) : Nat → CMState → Option (List Char) × CMState
  | 0, st => (none, st)
  | Nat.succ fuel, st =>
    match read_cache wf st with
    | .error _ => (none, st)
    | .ok ([], st₁) => (none, st₁)
    | .ok (oldest :: rest, st₁) =>
      match oldest with
      | .notDict => (none, st₁)
      | .noMessageKey => (none, st₁)
      | .nonStringMessage => skipEntry wf (get_oldest_message_aux wf fuel) rest st₁
      | .entry m _ =>
        if m.isEmpty then skipEntry wf (get_oldest_message_aux wf fuel) rest st₁
        else if (strip m).isEmpty then skipEntry wf (get_oldest_message_aux wf fuel) rest st₁
        else
          match write_cache wf rest st₁ with
          | .error _ => (none, st₁)
          | .ok st₂ => (some (strip m), st₂)

/-- Fuel sufficient for `get_oldest_message`'s recursion. -/
def cacheLenBound (st : CMState) : Nat :=
  match st.cacheFile with
  | none => 0
  | some l => l.length

/-- `get_oldest_message`: get and remove the oldest cached message. -/
def get_oldest_message (wf : Bool) (st : CMState) : Option (List Char) × CMState :=
  get_oldest_message_aux wf (cacheLenBound st + 1) st

/-- `get_cache_count`: `len(self._read_cache())`; the self-healing write
inside `_read_cache` can raise, and `get_cache_count` does not catch. -/
def get_cache_count (wf : Bool) (st : CMState) : Except Unit (Nat × CMState) :=
  match read_cache wf st with
  | .error e => .error e
  | .ok (cache, st₁) => .ok (cache.length, st₁)

/-- The body of `mark_as_sent`'s `try` block: append the entry, truncate the
history to the last 20 records, persist. -/
def mark_as_sent_try (wf : Bool) (message ts : List Char) (st : CMState) : Except Unit CMState :=
  let sent := read_sent st
  let sent₂ := sent ++ [RawEntry.entry message ts]
  let sent₃ := if 20 < sent₂.length then sent₂.drop (sent₂.length - 20) else sent₂
  write_sent wf sent₃ st

/-- `mark_as_sent`: any exception from the body is caught and only logged —
the method always returns normally. -/
def mark_as_sent (wf : Bool) (message ts : List Char) (st : CMState) : CMState :=
  match mark_as_sent_try wf message ts st with
  | .ok st' => st'
  | .error _ => st

/-- `entry.get("message", "").strip()` inside `validate_and_repair_cache`:
`.get` on a non-dict raises, `.strip()` on a non-string raises. -/
def entryGetMessageStrip : RawEntry → Except Unit (List Char)
  | .notDict => .error ()
  | .noMessageKey => .ok (strip [])
  | .nonStringMessage => .error ()
  | .entry m _ => .ok (strip m)

/-- The dedup loop of `validate_and_repair_cache` (lines 318-324): keep the
first occurrence of each non-empty stripped text. -/
def dedupLoop : List RawEntry → List (List Char) → List RawEntry → Nat →
    Except Unit (List RawEntry × Nat)
  | [], _, uniq, dups => .ok (uniq, dups)
  | e :: rest, seen, uniq, dups =>
    match entryGetMessageStrip e with
    | .error u => .error u
    | .ok msg =>
      if !msg.isEmpty && !seen.contains msg then
        dedupLoop rest (seen ++ [msg]) (uniq ++ [e]) dups
      else
        dedupLoop rest seen uniq (dups + 1)

/-- `validate_and_repair_cache`: dedup the cache, persisting only when a
duplicate was removed; exceptions are caught and reported as `False`. -/
def validate_and_repair_cache (wf : Bool) (st : CMState) : Bool × CMState :=
  match read_cache wf st with
  | .error _ => (false, st)
  | .ok (cache, st₁) =>
    match dedupLoop cache [] [] 0 with
    | .error _ => (false, st₁)
    | .ok (uniq, dups) =>
      if 0 < dups then
        match write_cache wf uniq st₁ with
        | .error _ => (false, st₁)
        | .ok st₂ => (true, st₂)
      else (true, st₁)

/-- The stripped text of a pending entry (empty for malformed records). -/
def textOf : RawEntry → List Char
  | .entry m _ => strip m
  | _ => []

/-- The stripped texts currently stored in `messages.json`. -/
def pendingTexts (st : CMState) : List (List Char) :=
  match st.cacheFile with
  | none => []
  | some l => l.map textOf

/-! ## LLM client (src/llm_client.py) -/

/-- Lower-casing as performed by Python `str.lower()` / `re.IGNORECASE`,
covering ASCII and the Polish letters that occur in the marker phrases. -/
def lowerChar (c : Char) : Char :=
  if 'A' ≤ c ∧ c ≤ 'Z' then Char.ofNat (c.toNat + 32)
  else if c = 'Ł' then 'ł'
  else if c = 'Ż' then 'ż'
  else if c = 'Ę' then 'ę'
  else if c = 'Ą' then 'ą'
  else if c = 'Ó' then 'ó'
  else if c = 'Ś' then 'ś'
  else if c = 'Ć' then 'ć'
  else if c = 'Ń' then 'ń'
  else if c = 'Ź' then 'ź'
  else c

def lowerList (s : List Char) : List Char := s.map lowerChar

/-- `re.search(pat, s, re.IGNORECASE)` for a literal pattern `pat`. -/
def iContains (pat s : List Char) : Bool :=
  containsSub (lowerList pat) (lowerList s)

/-- Match `pat` (case-insensitively) then `\d+` then `:` at the head of `s`
— the shape of the `Wersja \d+:` / `Opcja \d+:` patterns. -/
def matchNumAt (pat s : List Char) : Bool :=
  if startsWithL (lowerList pat) (lowerList s) then
    let rest := s.drop pat.length
    let ds := rest.takeWhile Char.isDigit
    !ds.isEmpty &&
      (match rest.drop ds.length with
       | ':' :: _ => true
       | _ => false)
  else false

/-- `re.search` for the `pat` + `\d+` + `:` patterns: try every suffix. -/
def containsNumPat (pat : List Char) : List Char → Bool
  | [] => matchNumAt pat []
  | c :: cs => matchNumAt pat (c :: cs) || containsNumPat pat cs

/-- The literal members of `example_patterns` (lines 111-124). -/
def examplePats : List (List Char) :=
  ["Lub:".data, "Albo:".data, "Lub tak:".data, "Przykład:".data, "Przykładowe".data,
   "Może:".data, "I jeszcze:".data, "Następnie:".data, "Lub też:".data, "Ewentualnie:".data]

/-- `has_examples` (line 127): any pattern found case-insensitively. -/
def has_examples (msg : List Char) : Bool :=
  examplePats.any (fun p => iContains p msg) ||
    containsNumPat "Wersja ".data msg || containsNumPat "Opcja ".data msg

/-- `separators` (lines 133-135), in their order. -/
def separators : List (List Char) :=
  ["\n\nLub:".data, "\n\nAlbo:".data, "\n\nMoże:".data, "\n\nPrzykład:".data,
   "\nLub:".data, "\nAlbo:".data, "\nMoże:".data, "\nNastępnie:".data, "\nI jeszcze:".data,
   "\n\nLub tak:".data, "\nLub też:".data, "\nEwentualnie:".data]

/-- `message.split(sep)[0]`: the prefix before the first occurrence of `sep`. -/
def beforeFirst (sep : List Char) : List Char → List Char
  | [] => []
  | c :: cs => if startsWithL sep (c :: cs) then [] else c :: beforeFirst sep cs

/-- The separator loop (lines 137-143): split on the first separator
contained in the message, keep the stripped first part, and stop. -/
def splitFirstVariant : List (List Char) → List Char → List Char
  | [], msg => msg
  | sep :: seps, msg =>
    if containsSub sep msg then strip (beforeFirst sep msg)
    else splitFirstVariant seps msg

/-- Locate, for `re.sub(d ++ "(.+?)" ++ d, "\1", ·)`, the non-greedy close of
a group opened at the head of `s`: the shortest non-empty newline-free
prefix `g` with `s = g ++ d ++ r`.  Returns `(g, r)`. -/
def findClose (d : List Char) : List Char → Option (List Char × List Char)
  | [] => none
  | c :: cs =>
    if c = '\n' then none
    else if startsWithL d cs then some ([c], cs.drop d.length)
    else
      match findClose d cs with
      | some (g, r) => some (c :: g, r)
      | none => none

/-- `re.sub(d ++ "(.+?)" ++ d, "\1", s)`: scan left to right; at each match
emit the group and continue after it; otherwise advance one character.
Structured with explicit fuel so that the kernel can evaluate it; every
recursive call strictly shrinks the text (`findClose_length`), so fuel
`s.length` never runs out. -/
def subDelimF (d : List Char) : Nat → List Char → List Char
  | 0, s => s
  | Nat.succ fuel, s =>
    match s with
    | [] => []
    | c :: cs =>
      if startsWithL d (c :: cs) then
        match findClose d ((c :: cs).drop d.length) with
        | some (g, r) => g ++ subDelimF d fuel r
        | none => c :: subDelimF d fuel cs
      else c :: subDelimF d fuel cs

def subDelim (d : List Char) (s : List Char) : List Char :=
  subDelimF d s.length s

/-- The character class `[\d\-\*\•]` of the leading-bullet pattern. -/
def bulletClass (c : Char) : Bool :=
  c.isDigit || c = '-' || c = '*' || c = '•'

/-- `re.sub(r'^[\d\-\*\•]+[\.\)]\s*', '', s)` (line 151). -/
def stripLeadingBullet (s : List Char) : List Char :=
  let ds := s.takeWhile bulletClass
  if ds.isEmpty then s
  else
    match s.drop ds.length with
    | c :: cs => if c = '.' || c = ')' then cs.dropWhile isPySpace else s
    | [] => s

def isTermPunct (c : Char) : Bool := c = '.' || c = '!' || c = '?'

/-- `re.split(r'[.!?]+\s+', s)` (line 160): a separator is a run of
terminal punctuation followed by at least one whitespace character; the
punctuation/whitespace classes are disjoint so the greedy runs need no
backtracking. -/
def sentSplitF : Nat → List Char → List (List Char)
  | 0, s => [s]
  | Nat.succ fuel, s =>
    match s with
    | [] => [[]]
    | c :: cs =>
      if isTermPunct c then
        if (cs.dropWhile isTermPunct) ≠ [] ∧ isPySpace (cs.dropWhile isTermPunct).headI then
          [] :: sentSplitF fuel ((cs.dropWhile isTermPunct).dropWhile isPySpace)
        else
          match sentSplitF fuel (cs.dropWhile isTermPunct) with
          | [] => [c :: cs.takeWhile isTermPunct]
          | t :: ts => (c :: (cs.takeWhile isTermPunct ++ t)) :: ts
      else
        match sentSplitF fuel cs with
        | [] => [[c]]
        | t :: ts => (c :: t) :: ts

def sentSplit (s : List Char) : List (List Char) :=
  sentSplitF s.length s

/-- Python `s.endswith(('.', '!', '?'))`. -/
def endsTermPunct (s : List Char) : Bool :=
  match s.getLast? with
  | some c => isTermPunct c
  | none => false

/-- The over-length branch of `_clean_message` (lines 157-167): if the text
still exceeds 500 characters, keep the first sentence, or the first two if
the first is under 50 characters, re-appending terminal punctuation. -/
def longCleanup (message : List Char) : List Char :=
  if 500 < message.length then
    match sentSplit message with
    | [] => message
    | s0 :: rest =>
      let message' :=
        match rest with
        | s1 :: _ =>
          if s0.length < 50 then s0 ++ ('.' :: ' ' :: s1) ++ ['.']
          else s0 ++ (if endsTermPunct s0 then [] else ['.'])
        | [] => s0 ++ (if endsTermPunct s0 then [] else ['.'])
      strip message'
  else message

/-- `_clean_message` (lines 87-179): trim, cut multi-example output at the
first separator, strip markdown emphasis, strip a leading list marker,
shorten over-length output, and reject results under 10 characters. -/
def clean_message (raw_message : List Char) : Option (List Char) :=
  if raw_message.isEmpty then none
  else
    let m₁ := strip raw_message
    let m₂ := if has_examples m₁ then splitFirstVariant separators m₁ else m₁
    let m₃ := subDelim ['*', '*'] m₂
    let m₄ := subDelim ['*'] m₃
    let m₅ := subDelim [Char.ofNat 96] m₄
    let m₆ := stripLeadingBullet m₅
    let m₇ := strip m₆
    let m₈ := longCleanup m₇
    if m₈.isEmpty || m₈.length < 10 then none
    else some m₈

/-- The outcome of one remote generation call: the raw text returned, or
the exception raised (as `str(e)`). -/
inductive CallResult
  | ok (raw : List Char)
  | exn (errmsg : List Char)
deriving DecidableEq, Repr

/-- The transient-error indicators of `generate_message` (lines 220-228). -/
def capacityIndicators : List (List Char) :=
  ["over capacity".data, "503".data, "rate limit".data, "429".data,
   "too many requests".data, "service unavailable".data, "internal_server_error".data]

/-- `is_capacity_error`: any indicator occurs in the lowercased error text. -/
def is_capacity_error (errmsg : List Char) : Bool :=
  capacityIndicators.any (fun ind => containsSub ind (lowerList errmsg))

def exceptDecEq {ε α : Type} [DecidableEq ε] [DecidableEq α] : DecidableEq (Except ε α)
  | .error e, .error f =>
    if h : e = f then isTrue (by rw [h]) else isFalse (by simp [h])
  | .error _, .ok _ => isFalse (by simp)
  | .ok _, .error _ => isFalse (by simp)
  | .ok a, .ok b =>
    if h : a = b then isTrue (by rw [h]) else isFalse (by simp [h])

instance {ε α : Type} [DecidableEq ε] [DecidableEq α] : DecidableEq (Except ε α) :=
  exceptDecEq

/-- The observable outcome of `generate_message`: its return value or the
exception it propagates, the backoff sleeps performed (in order, seconds),
and the number of remote attempts consumed. -/
structure GenTrace where
  result : Except (List Char) (Option (List Char))
  sleeps : List Nat
  attemptsUsed : Nat
deriving DecidableEq, Repr

/-- The retry loop of `generate_message` (lines 193-244), indexed by the
0-based `attempt` counter; `calls n` is the outcome of the `n`-th remote
call; the fuel is the number of loop iterations remaining
(`max_retries - attempt`). -/
def generate_message_go (calls : Nat → CallResult) (max_retries : Nat) :
    Nat → Nat → GenTrace
  | _, 0 => ⟨.ok none, [], 0⟩
  | attempt, Nat.succ fuel =>
    match calls attempt with
    | .ok raw =>
      if raw.isEmpty then ⟨.ok none, [], 1⟩
      else
        match clean_message raw with
        | none => ⟨.ok none, [], 1⟩
        | some m => ⟨.ok (some m), [], 1⟩
    | .exn e =>
      if is_capacity_error e && decide (attempt < max_retries - 1) then
        let rest := generate_message_go calls max_retries (attempt + 1) fuel
        ⟨rest.result, 2 ^ (attempt + 1) :: rest.sleeps, rest.attemptsUsed + 1⟩
      else ⟨.error e, [], 1⟩

/-- `generate_message(prompt, max_retries)` as a function of the remote-call
outcomes. -/
def generate_message (calls : Nat → CallResult) (max_retries : Nat) : GenTrace :=
  generate_message_go calls max_retries 0 max_retries

/-- A concrete remote-call trace: two transient failures, then success
(used to instantiate the retry theorems). -/
def demoCalls : Nat → CallResult
  | 0 => .exn "Error 503".data
  | 1 => .exn "rate limit exceeded".data
  | _ => .ok "abcdefghij".data

/-- A concrete remote-call trace failing with a non-transient error. -/
def demoCallsBad : Nat → CallResult
  | _ => .exn "invalid api key".data

/-! ## Reminder scheduler (src/scheduler.py)

`datetime.date` is modelled as a day index (`Nat`), `datetime.time` as
hour/minute, and `datetime` as a day index plus a second-of-day;
`datetime.combine` builds the latter from the former two.  The single
`datetime.now()` observation made by a call is passed in as `now`; the
values drawn by `random.randint(start_minutes, end_minutes)` are passed in
as `rToday` / `rTomorrow` (one per potential call site). -/

structure Time where
  hour : Nat
  minute : Nat
deriving DecidableEq, Repr

structure DateTime where
  day : Nat
  secondOfDay : Nat
deriving DecidableEq, Repr

/-- `a < b` on datetimes (dates compare before times of day). -/
def dtLt (a b : DateTime) : Bool :=
  a.day < b.day || (a.day = b.day && a.secondOfDay < b.secondOfDay)

/-- `a ≤ b` on datetimes. -/
def dtLe (a b : DateTime) : Bool :=
  a.day < b.day || (a.day = b.day && a.secondOfDay ≤ b.secondOfDay)

/-- `ReminderScheduler`'s fields (the logger aside). -/
structure Sched where
  range_start : Time
  range_end : Time
  randomize : Bool
  next_reminder_time : Option DateTime
deriving DecidableEq, Repr

/-- `start_minutes` (line 68). -/
def startMinutes (s : Sched) : Nat := s.range_start.hour * 60 + s.range_start.minute

/-- `end_minutes` (line 69). -/
def endMinutes (s : Sched) : Nat := s.range_end.hour * 60 + s.range_end.minute

/-- `_generate_random_time` for a given date, with `r` the value returned by
`random.randint(start_minutes, end_minutes)`. -/
def generate_random_time (date : Nat) (r : Nat) : DateTime :=
  ⟨date, (r / 60) * 3600 + (r % 60) * 60⟩

/-- `_generate_fixed_time`: combine the date with `range_start`. -/
def generate_fixed_time (s : Sched) (date : Nat) : DateTime :=
  ⟨date, s.range_start.hour * 3600 + s.range_start.minute * 60⟩

/-- The minute-of-day of a datetime. -/
def minuteOfDay (d : DateTime) : Nat := d.secondOfDay / 60

/-- `schedule_next_reminder` (lines 90-118): candidate for today; if `now`
is at or past it, generate a fresh candidate on tomorrow's date. -/
def schedule_next_reminder (s : Sched) (now : DateTime) (rToday rTomorrow : Nat) :
    DateTime × Sched :=
  let today := now.day
  let tomorrow := today + 1
  let today_reminder :=
    if s.randomize then generate_random_time today rToday
    else generate_fixed_time s today
  let next :=
    if dtLt now today_reminder then today_reminder
    else if s.randomize then generate_random_time tomorrow rTomorrow
    else generate_fixed_time s tomorrow
  (next, { s with next_reminder_time := some next })

/-- `should_send_reminder` (lines 120-137): schedule (and report `False`)
when nothing is scheduled; otherwise `True` iff `now ≥ next_reminder_time`. -/
def should_send_reminder (s : Sched) (now : DateTime) (rToday rTomorrow : Nat) :
    Bool × Sched :=
  match s.next_reminder_time with
  | none => (false, (schedule_next_reminder s now rToday rTomorrow).2)
  | some t => (dtLe t now, s)

end AIRem

/-! ## Helper lemmas -/

namespace AIRem

theorem startsWithL_length :
    ∀ {p s : List Char}, startsWithL p s = true → p.length ≤ s.length := by
  intro p
  induction p with
  | nil => simp
  | cons a ps ih =>
    intro s h
    cases s with
    | nil => simp [startsWithL] at h
    | cons x xs =>
      simp only [startsWithL, Bool.and_eq_true] at h
      simpa using Nat.succ_le_succ (ih h.2)

/-- Every step of `subDelimF` strictly shrinks the text, so fuel `s.length`
is sufficient and `subDelim` computes the full left-to-right substitution. -/
theorem findClose_length {d : List Char} :
    ∀ {s g r : List Char}, findClose d s = some (g, r) → r.length + d.length + 1 ≤ s.length := by
  intro s
  induction s with
  | nil => intro g r h; simp [findClose] at h
  | cons c cs ih =>
    intro g r h
    simp only [findClose] at h
    split at h
    · exact absurd h (by simp)
    · split at h
      · rename_i hsw
        simp only [Option.some.injEq, Prod.mk.injEq] at h
        obtain ⟨-, hr⟩ := h
        subst hr
        have hd : d.length ≤ cs.length := startsWithL_length hsw
        simp only [List.length_drop, List.length_cons]
        omega
      · match hfc : findClose d cs with
        | some (g', r') =>
          rw [hfc] at h
          simp only [Option.some.injEq, Prod.mk.injEq] at h
          obtain ⟨-, hr⟩ := h
          subst hr
          have := ih hfc
          simp only [List.length_cons]
          omega
        | none => rw [hfc] at h; exact absurd h (by simp)

theorem dropWhile_dropWhile (p : Char → Bool) (l : List Char) :
    (l.dropWhile p).dropWhile p = l.dropWhile p := by
  induction l with
  | nil => simp
  | cons c cs ih =>
    by_cases h : p c
    · simp [List.dropWhile_cons, h, ih]
    · simp [List.dropWhile_cons, h]

theorem dropWhile_eq_self_of_prefix {p : Char → Bool} {u w : List Char}
    (hu : u.dropWhile p = u) (hw : w <+: u) : w.dropWhile p = w := by
  cases w with
  | nil => simp
  | cons a ws =>
    cases u with
    | nil => simp [List.prefix_nil] at hw
    | cons b us =>
      have hab : a = b := by
        obtain ⟨t, ht⟩ := hw
        exact (List.cons.injEq .. ▸ ht :
          a = b ∧ ws ++ t = us).1
      have hpb : p b = false := by
        by_cases hp : p b
        · exfalso
          rw [List.dropWhile_cons_of_pos hp] at hu
          have := (List.dropWhile_suffix p (l := us)).sublist.length_le
          rw [hu] at this
          simp at this
        · simpa using hp
      rw [hab, List.dropWhile_cons_of_neg (by simp [hpb])]

/-- Python `strip` is idempotent. -/
theorem strip_strip (s : List Char) : strip (strip s) = strip s := by
  unfold strip
  set p := isPySpace
  set u := s.dropWhile p with hu
  have hu' : u.dropWhile p = u := hu ▸ dropWhile_dropWhile p s
  set v := u.reverse.dropWhile p with hv
  have hv' : v.dropWhile p = v := hv ▸ dropWhile_dropWhile p u.reverse
  have hpre : v.reverse <+: u := by
    have : v <:+ u.reverse := hv ▸ List.dropWhile_suffix p
    simpa using this.reverse
  have h1 : v.reverse.dropWhile p = v.reverse := dropWhile_eq_self_of_prefix hu' hpre
  rw [h1]
  simp [hv']

/-- `dedupLoop` never raises on a list of validated entries. -/
theorem dedupLoop_ok :
    ∀ (l : List RawEntry), (∀ e ∈ l, isValidEntry e = true) →
      ∀ (seen : List (List Char)) (uniq : List RawEntry) (d : Nat),
      ∃ r, dedupLoop l seen uniq d = .ok r := by
  intro l
  induction l with
  | nil => exact fun _ seen uniq d => ⟨(uniq, d), rfl⟩
  | cons e rest ih =>
    intro hv seen uniq d
    have he : isValidEntry e = true := hv e (List.mem_cons_self ..)
    have hrest : ∀ x ∈ rest, isValidEntry x = true :=
      fun x h => hv x (List.mem_cons_of_mem _ h)
    cases e with
    | notDict => simp [isValidEntry] at he
    | noMessageKey => simp [isValidEntry] at he
    | nonStringMessage => simp [isValidEntry] at he
    | entry m ts =>
      show ∃ r, dedupLoop (RawEntry.entry m ts :: rest) seen uniq d = .ok r
      unfold dedupLoop
      simp only [entryGetMessageStrip]
      split
      · exact ih hrest ..
      · exact ih hrest ..

/-- The invariant of the dedup loop: the accumulated unique entries have
pairwise distinct stripped texts, the duplicate counter never decreases,
and when no duplicate is counted every entry is kept in order. -/
theorem dedupLoop_nodup :
    ∀ (l : List RawEntry) (seen : List (List Char)) (uniq : List RawEntry) (d : Nat)
      (uniq' : List RawEntry) (d' : Nat),
      dedupLoop l seen uniq d = .ok (uniq', d') →
      (∀ t ∈ uniq.map textOf, t ∈ seen) →
      (uniq.map textOf).Nodup →
      (uniq'.map textOf).Nodup ∧ d ≤ d' ∧ (d' = d → uniq' = uniq ++ l) := by
  intro l
  induction l with
  | nil =>
    intro seen uniq d uniq' d' h hseen hnd
    simp only [dedupLoop, Except.ok.injEq, Prod.mk.injEq] at h
    obtain ⟨h1, h2⟩ := h
    subst h1; subst h2
    exact ⟨hnd, le_refl _, fun _ => by simp⟩
  | cons e rest ih =>
    intro seen uniq d uniq' d' h hseen hnd
    cases e with
    | notDict => simp [dedupLoop, entryGetMessageStrip] at h
    | nonStringMessage => simp [dedupLoop, entryGetMessageStrip] at h
    | noMessageKey =>
      have h' : dedupLoop rest seen uniq (d + 1) = .ok (uniq', d') := by
        simpa [dedupLoop, entryGetMessageStrip, strip] using h
      obtain ⟨hnd', hle, heq⟩ := ih seen uniq (d + 1) uniq' d' h' hseen hnd
      exact ⟨hnd', by omega, fun hd => by omega⟩
    | entry m ts =>
      simp only [dedupLoop, entryGetMessageStrip] at h
      by_cases hcond : (!(strip m).isEmpty && !seen.contains (strip m)) = true
      · rw [if_pos hcond] at h
        have hmsg : strip m ∉ seen := by
          simp only [Bool.and_eq_true, Bool.not_eq_true'] at hcond
          intro hmem
          have h2 := hcond.2
          simp [List.contains, List.elem_eq_mem, hmem] at h2
        have hseen' : ∀ t ∈ (uniq ++ [RawEntry.entry m ts]).map textOf,
            t ∈ seen ++ [strip m] := by
          intro t ht
          simp only [List.map_append, List.map_cons, List.map_nil, List.mem_append,
            List.mem_cons, List.not_mem_nil, or_false] at ht
          rcases ht with ht | ht
          · exact List.mem_append_left _ (hseen t ht)
          · subst ht
            simp [textOf]
        have hnd' : ((uniq ++ [RawEntry.entry m ts]).map textOf).Nodup := by
          simp only [List.map_append, List.map_cons, List.map_nil]
          rw [List.nodup_append]
          refine ⟨hnd, List.nodup_singleton _, ?_⟩
          intro t ht hts
          simp only [textOf, List.mem_singleton] at hts
          exact hmsg (hts ▸ hseen t ht)
        obtain ⟨hres, hle, heq⟩ :=
          ih (seen ++ [strip m]) (uniq ++ [RawEntry.entry m ts]) d uniq' d' h hseen' hnd'
        refine ⟨hres, hle, fun hd => ?_⟩
        rw [heq hd, List.append_assoc]
        rfl
      · rw [if_neg hcond] at h
        obtain ⟨hnd', hle, heq⟩ := ih seen uniq (d + 1) uniq' d' h hseen hnd
        exact ⟨hnd', by omega, fun hd => by omega⟩

/-- `read_cache` on a parseable file, with the match on the state reduced. -/
theorem read_cache_eq (wf : Bool) (l : List RawEntry) (sf : Option (List RawEntry)) :
    read_cache wf ⟨some l, sf⟩ =
      (if (l.filter isValidEntry).length < l.length then
        match write_cache wf (l.filter isValidEntry) ⟨some l, sf⟩ with
        | .error e => .error e
        | .ok st' => .ok (l.filter isValidEntry, st')
      else .ok (l.filter isValidEntry, ⟨some l, sf⟩)) := rfl

/-- Under a failing store every path of `get_oldest_message` ends in the
`except` branch (or the empty-queue return) before any state change. -/
theorem get_oldest_aux_write_fail (fuel : Nat) (st : CMState) :
    get_oldest_message_aux true fuel st = (none, st) := by
  obtain ⟨cf, sf⟩ := st
  cases fuel with
  | zero => rfl
  | succ fuel =>
    cases cf with
    | none => rfl
    | some l =>
      unfold get_oldest_message_aux
      rw [read_cache_eq]
      by_cases hlen : (l.filter isValidEntry).length < l.length
      · rw [if_pos hlen]
        simp [write_cache]
      · rw [if_neg hlen]
        cases hval : l.filter isValidEntry with
        | nil => rfl
        | cons oldest rest =>
          cases oldest with
          | notDict => rfl
          | noMessageKey => rfl
          | nonStringMessage => simp [skipEntry, write_cache]
          | entry m ts =>
            by_cases hm : m.isEmpty
            · simp [hm, skipEntry, write_cache]
            · by_cases hsm : (strip m).isEmpty
              · simp [hm, hsm, skipEntry, write_cache]
              · simp [hm, hsm, write_cache]

/-- `add_message` on a working store with an all-valid cache appends the
stripped message and reports success. -/
theorem add_message_ok (m ts : List Char) (l : List RawEntry) (sf : Option (List RawEntry))
    (hvalid : ∀ e ∈ l, isValidEntry e = true) (hm : strip m = m) (hne : m ≠ []) :
    add_message false m ts ⟨some l, sf⟩ = (true, ⟨some (l ++ [.entry m ts]), sf⟩) := by
  have hfe : l.filter isValidEntry = l := List.filter_eq_self.mpr hvalid
  have hie : m.isEmpty = false := by
    cases m with
    | nil => exact absurd rfl hne
    | cons x xs => rfl
  unfold add_message
  rw [hm, hie, read_cache_eq, hfe]
  simp [write_cache]

/-- `get_oldest_message` on a working store pops the front entry of an
all-valid cache and returns its (stripped) text. -/
theorem get_oldest_ok (m ts : List Char) (rest : List RawEntry) (sf : Option (List RawEntry))
    (hvalid : ∀ e ∈ rest, isValidEntry e = true)
    (hm : strip m = m) (hne : m ≠ []) :
    get_oldest_message false ⟨some (.entry m ts :: rest), sf⟩ = (some m, ⟨some rest, sf⟩) := by
  have hie : m.isEmpty = false := by
    cases m with
    | nil => exact absurd rfl hne
    | cons x xs => rfl
  have hval : isValidEntry (RawEntry.entry m ts) = true := by
    simp [isValidEntry, hm, hie]
  have hfe : (RawEntry.entry m ts :: rest).filter isValidEntry = .entry m ts :: rest :=
    List.filter_eq_self.mpr (by
      intro e he
      rcases List.mem_cons.mp he with rfl | h
      · exact hval
      · exact hvalid e h)
  unfold get_oldest_message
  simp only [cacheLenBound, List.length_cons]
  generalize (rest.length + 1 : Nat) = f
  unfold get_oldest_message_aux
  rw [read_cache_eq, hfe]
  simp [hie, hm, write_cache]

/-- Every `some` result of `get_oldest_message_aux` is a stripped, non-empty
text: the success path returns `message.strip()` guarded by non-emptiness,
and every other path yields `none`. -/
theorem get_oldest_aux_some (wf : Bool) :
    ∀ (fuel : Nat) (st : CMState) (m : List Char) (st' : CMState),
      get_oldest_message_aux wf fuel st = (some m, st') → strip m ≠ [] ∧ strip m = m := by
  intro fuel
  induction fuel with
  | zero =>
    intro st m st' h
    simp [get_oldest_message_aux] at h
  | succ fuel ih =>
    intro st m st' h
    unfold get_oldest_message_aux at h
    cases hrc : read_cache wf st with
    | error e => rw [hrc] at h; simp at h
    | ok p =>
      obtain ⟨cache, st₁⟩ := p
      rw [hrc] at h
      cases cache with
      | nil => simp at h
      | cons oldest rest =>
        have hskip : ∀ stx : CMState,
            skipEntry wf (get_oldest_message_aux wf fuel) rest stx = (some m, st') →
            strip m ≠ [] ∧ strip m = m := by
          intro stx hsk
          unfold skipEntry at hsk
          cases hwc : write_cache wf rest stx with
          | error e => rw [hwc] at hsk; simp at hsk
          | ok st₂ =>
            rw [hwc] at hsk
            dsimp only at hsk
            by_cases hre : rest.isEmpty = true
            · rw [if_pos hre] at hsk; simp at hsk
            · rw [if_neg hre] at hsk
              exact ih st₂ m st' hsk
        cases oldest with
        | notDict => simp at h
        | noMessageKey => simp at h
        | nonStringMessage =>
          dsimp only at h
          exact hskip st₁ h
        | entry m₀ ts =>
          dsimp only at h
          by_cases hm0 : m₀.isEmpty = true
          · rw [if_pos hm0] at h
            exact hskip st₁ h
          · rw [if_neg hm0] at h
            by_cases hsm0 : (strip m₀).isEmpty = true
            · rw [if_pos hsm0] at h
              exact hskip st₁ h
            · rw [if_neg hsm0] at h
              cases hwc : write_cache wf rest st₁ with
              | error e => rw [hwc] at h; simp at h
              | ok st₂ =>
                rw [hwc] at h
                dsimp only at h
                simp only [Prod.mk.injEq, Option.some.injEq] at h
                obtain ⟨h1, -⟩ := h
                subst h1
                refine ⟨?_, strip_strip m₀⟩
                rw [strip_strip m₀]
                simpa using hsm0

end AIRem

/-! ## Claim theorems (part 1: closed refutations and evaluations) -/

namespace AIRem

/-- C3 (counterexample): starting from an empty pending queue, `add_message`
accepts the same text twice — the resulting queue holds two entries with
the identical trimmed text, so the no-duplicate invariant is not maintained
by `enqueue`. -/
theorem enqueue_allows_duplicate :
    (add_message false "hello".data "t2".data
        (add_message false "hello".data "t1".data ⟨some [], some []⟩).2).1 = true ∧
    (add_message false "hello".data "t2".data
        (add_message false "hello".data "t1".data ⟨some [], some []⟩).2).2.cacheFile =
      some [RawEntry.entry "hello".data "t1".data,
            RawEntry.entry "hello".data "t2".data] := by
  constructor
  · decide
  · decide

/-- C3 (amended): `add_message` performs no duplicate check, so the pending
queue can accumulate entries with equal trimmed texts; deduplication is the
job of `validate_and_repair_cache`, after which (on a working store) the
call reports success and no two pending entries share a trimmed text. -/
theorem validate_and_repair_dedups (st : CMState) :
    (validate_and_repair_cache false st).1 = true ∧
    (pendingTexts (validate_and_repair_cache false st).2).Nodup := by
  obtain ⟨cf, sf⟩ := st
  unfold validate_and_repair_cache
  cases cf with
  | none =>
    simp [read_cache, dedupLoop, pendingTexts]
  | some l =>
    have hval : ∀ e ∈ l.filter isValidEntry, isValidEntry e = true :=
      fun e he => (List.mem_filter.mp he).2
    obtain ⟨⟨uniq, dups⟩, hdl⟩ := dedupLoop_ok (l.filter isValidEntry) hval [] [] 0
    obtain ⟨hnodup, -, hzero⟩ :=
      dedupLoop_nodup (l.filter isValidEntry) [] [] 0 uniq dups hdl (by simp) (by simp)
    rw [read_cache_eq]
    by_cases hlen : (l.filter isValidEntry).length < l.length
    · rw [if_pos hlen]
      simp only [write_cache, Bool.false_eq_true, if_false, hdl]
      by_cases hd : 0 < dups
      · refine ⟨?_, ?_⟩
        · simp [hd]
        · simp only [hd, if_true]
          simpa [pendingTexts] using hnodup
      · refine ⟨?_, ?_⟩
        · simp [hd]
        · simp only [hd, if_false]
          have huniq : uniq = l.filter isValidEntry := by
            simpa using hzero (by omega)
          simp only [pendingTexts]
          rw [← huniq]
          exact hnodup
    · have hfix : l.filter isValidEntry = l := by
        have hsub : List.Sublist (l.filter isValidEntry) l := List.filter_sublist l
        exact hsub.eq_of_length (le_antisymm hsub.length_le (by omega))
      rw [if_neg hlen]
      simp only [write_cache, Bool.false_eq_true, if_false, hdl]
      by_cases hd : 0 < dups
      · refine ⟨?_, ?_⟩
        · simp [hd]
        · simp only [hd, if_true]
          simpa [pendingTexts] using hnodup
      · refine ⟨?_, ?_⟩
        · simp [hd]
        · simp only [hd, if_false]
          have huniq : uniq = l.filter isValidEntry := by
            simpa using hzero (by omega)
          simp only [pendingTexts]
          rw [← hfix, ← huniq]
          exact hnodup

/-- C4 (counterexample): with a failing durable store, the `mark_as_sent`
body raises on its write, yet `mark_as_sent` returns normally with the
state unchanged — the storage-write failure of the `recordSent` mutation is
swallowed, not propagated. -/
theorem mark_as_sent_swallows_write_failure :
    mark_as_sent_try true "x".data "t".data ⟨some [], some []⟩ = Except.error () ∧
    mark_as_sent true "x".data "t".data ⟨some [], some []⟩ = ⟨some [], some []⟩ := by
  constructor
  · decide
  · decide

/-- C4 (amended): when every durable write fails, `add_message` reports
failure (`False`) and `get_oldest_message` yields `None`, both leaving the
state unchanged; `mark_as_sent`, however, catches the raise internally and
returns normally — only the first two mutations surface the failure. -/
theorem write_failure_semantics :
    (∀ (m ts : List Char) (st : CMState), add_message true m ts st = (false, st)) ∧
    (∀ st : CMState, get_oldest_message true st = (none, st)) ∧
    (∀ (m ts : List Char) (st : CMState),
      mark_as_sent true m ts st = st ∧ mark_as_sent_try true m ts st = Except.error ()) := by
  refine ⟨?_, ?_, ?_⟩
  · intro m ts st
    obtain ⟨cf, sf⟩ := st
    unfold add_message
    split
    · rfl
    · split
      · rfl
      · cases cf with
        | none => simp [read_cache, write_cache]
        | some l =>
          rw [read_cache_eq]
          by_cases hlen : (l.filter isValidEntry).length < l.length
          · rw [if_pos hlen]
            simp [write_cache]
          · rw [if_neg hlen]
            simp [write_cache]
  · intro st
    exact get_oldest_aux_write_fail _ st
  · intro m ts st
    exact ⟨by simp [mark_as_sent, mark_as_sent_try, write_sent],
           by simp [mark_as_sent_try, write_sent]⟩

/-- The minute-of-day of a randomized occasion is exactly the drawn minute. -/
theorem minuteOfDay_random (d r : Nat) : minuteOfDay (generate_random_time d r) = r := by
  simp only [minuteOfDay, generate_random_time]
  omega

/-- The minute-of-day of a fixed occasion is the configured start minute. -/
theorem minuteOfDay_fixed (s : Sched) (d : Nat) :
    minuteOfDay (generate_fixed_time s d) = startMinutes s := by
  simp only [minuteOfDay, generate_fixed_time, startMinutes]
  omega

/-- C8: in randomized mode every occasion produced by
`schedule_next_reminder` has a minute-of-day within
`[startMinutes, endMinutes]` (given the `random.randint` contract on the
drawn values); in fixed mode its time-of-day is exactly the start time; and
whenever `now` is at or past today's candidate the occasion falls on the
following date. -/
theorem scheduler_window_and_rollover :
    (∀ (s : Sched) (now : DateTime) (rT rTm : Nat),
      s.randomize = true →
      startMinutes s ≤ rT → rT ≤ endMinutes s →
      startMinutes s ≤ rTm → rTm ≤ endMinutes s →
      startMinutes s ≤ minuteOfDay (schedule_next_reminder s now rT rTm).1 ∧
        minuteOfDay (schedule_next_reminder s now rT rTm).1 ≤ endMinutes s) ∧
    (∀ (s : Sched) (now : DateTime) (rT rTm : Nat),
      s.randomize = false →
      (schedule_next_reminder s now rT rTm).1.secondOfDay =
        s.range_start.hour * 3600 + s.range_start.minute * 60 ∧
      minuteOfDay (schedule_next_reminder s now rT rTm).1 = startMinutes s) ∧
    (∀ (s : Sched) (now : DateTime) (rT rTm : Nat),
      dtLt now (if s.randomize then generate_random_time now.day rT
                else generate_fixed_time s now.day) = false →
      (schedule_next_reminder s now rT rTm).1.day = now.day + 1) := by
  refine ⟨?_, ?_, ?_⟩
  · intro s now rT rTm hrand h1 h2 h3 h4
    unfold schedule_next_reminder
    simp only [hrand, if_true]
    by_cases hlt : dtLt now (generate_random_time now.day rT) = true
    · simp only [hlt, if_true, minuteOfDay_random]
      exact ⟨h1, h2⟩
    · simp only [Bool.not_eq_true] at hlt
      simp only [hlt, Bool.false_eq_true, if_false, minuteOfDay_random]
      exact ⟨h3, h4⟩
  · intro s now rT rTm hrand
    unfold schedule_next_reminder
    simp only [hrand, Bool.false_eq_true, if_false]
    by_cases hlt : dtLt now (generate_fixed_time s now.day) = true
    · simp only [hlt, if_true, minuteOfDay_fixed]
      exact ⟨rfl, trivial⟩
    · simp only [Bool.not_eq_true] at hlt
      simp only [hlt, Bool.false_eq_true, if_false, minuteOfDay_fixed]
      exact ⟨rfl, trivial⟩
  · intro s now rT rTm hlt
    unfold schedule_next_reminder
    by_cases hrand : s.randomize
    · rw [hrand] at hlt
      simp only [hrand, if_true] at *
      simp only [hlt, Bool.false_eq_true, if_false]
      rfl
    · simp only [Bool.not_eq_true] at hrand
      rw [hrand] at hlt
      simp only [hrand, Bool.false_eq_true, if_false] at *
      simp only [hlt]
      rfl

/-- C8 witness: a 14:00-17:00 randomized window with draw 850 stays inside
the window; a 15:00 fixed schedule hits 15:00 exactly; and with `now` at
23:53:20 past today's 14:10 candidate the occasion lands on the next day. -/
theorem scheduler_window_and_rollover_witness :
    (startMinutes ⟨⟨14, 0⟩, ⟨17, 0⟩, true, none⟩ ≤
      minuteOfDay (schedule_next_reminder ⟨⟨14, 0⟩, ⟨17, 0⟩, true, none⟩ ⟨100, 3600⟩ 850 900).1 ∧
     minuteOfDay (schedule_next_reminder ⟨⟨14, 0⟩, ⟨17, 0⟩, true, none⟩ ⟨100, 3600⟩ 850 900).1 ≤
      endMinutes ⟨⟨14, 0⟩, ⟨17, 0⟩, true, none⟩) ∧
    minuteOfDay (schedule_next_reminder ⟨⟨15, 0⟩, ⟨15, 0⟩, false, none⟩ ⟨100, 3600⟩ 0 0).1 =
      startMinutes ⟨⟨15, 0⟩, ⟨15, 0⟩, false, none⟩ ∧
    (schedule_next_reminder ⟨⟨14, 0⟩, ⟨17, 0⟩, true, none⟩ ⟨100, 86000⟩ 850 900).1.day = 101 :=
  ⟨scheduler_window_and_rollover.1 ⟨⟨14, 0⟩, ⟨17, 0⟩, true, none⟩ ⟨100, 3600⟩ 850 900 rfl
      (by decide) (by decide) (by decide) (by decide),
   (scheduler_window_and_rollover.2.1 ⟨⟨15, 0⟩, ⟨15, 0⟩, false, none⟩ ⟨100, 3600⟩ 0 0 rfl).2,
   scheduler_window_and_rollover.2.2 ⟨⟨14, 0⟩, ⟨17, 0⟩, true, none⟩ ⟨100, 86000⟩ 850 900
      (by decide)⟩

/-- C9: when no occasion is armed, `should_send_reminder` computes one via
`schedule_next_reminder` and reports `False` on that same call; when one is
armed, it reports `True` exactly when `now` has reached it, leaving the
state untouched. -/
theorem is_due_contract :
    (∀ (s : Sched) (now : DateTime) (rT rTm : Nat), s.next_reminder_time = none →
      should_send_reminder s now rT rTm =
        (false, (schedule_next_reminder s now rT rTm).2)) ∧
    (∀ (s : Sched) (t now : DateTime) (rT rTm : Nat), s.next_reminder_time = some t →
      should_send_reminder s now rT rTm = (dtLe t now, s)) := by
  constructor
  · intro s now rT rTm h
    unfold should_send_reminder
    rw [h]
  · intro s t now rT rTm h
    unfold should_send_reminder
    rw [h]

/-- C9 witness: instantiation at an unarmed and at an armed scheduler. -/
theorem is_due_contract_witness :
    should_send_reminder ⟨⟨15, 0⟩, ⟨15, 0⟩, false, none⟩ ⟨5, 100⟩ 0 0 =
      (false, (schedule_next_reminder ⟨⟨15, 0⟩, ⟨15, 0⟩, false, none⟩ ⟨5, 100⟩ 0 0).2) ∧
    should_send_reminder ⟨⟨15, 0⟩, ⟨15, 0⟩, false, some ⟨5, 54000⟩⟩ ⟨5, 60000⟩ 0 0 =
      (dtLe ⟨5, 54000⟩ ⟨5, 60000⟩, ⟨⟨15, 0⟩, ⟨15, 0⟩, false, some ⟨5, 54000⟩⟩) :=
  ⟨is_due_contract.1 ⟨⟨15, 0⟩, ⟨15, 0⟩, false, none⟩ ⟨5, 100⟩ 0 0 rfl,
   is_due_contract.2 ⟨⟨15, 0⟩, ⟨15, 0⟩, false, some ⟨5, 54000⟩⟩ ⟨5, 54000⟩ ⟨5, 60000⟩ 0 0 rfl⟩

/-- C10 (implicit): every call to `schedule_next_reminder` arms an occasion
strictly later than the `now` it observed (today's candidate only when
`now` is strictly before it, otherwise a candidate on tomorrow's date,
which is on a later day), and records it in `next_reminder_time`. -/
theorem compute_next_future (s : Sched) (now : DateTime) (rT rTm : Nat) :
    dtLt now (schedule_next_reminder s now rT rTm).1 = true ∧
    (schedule_next_reminder s now rT rTm).2.next_reminder_time =
      some (schedule_next_reminder s now rT rTm).1 := by
  refine ⟨?_, rfl⟩
  unfold schedule_next_reminder
  by_cases hrand : s.randomize = true
  · simp only [hrand, if_true]
    by_cases hlt : dtLt now (generate_random_time now.day rT) = true
    · simp only [hlt, if_true]
    · simp only [Bool.not_eq_true] at hlt
      simp only [hlt, Bool.false_eq_true, if_false]
      simp [dtLt, generate_random_time]
  · simp only [Bool.not_eq_true] at hrand
    simp only [hrand, Bool.false_eq_true, if_false]
    by_cases hlt : dtLt now (generate_fixed_time s now.day) = true
    · simp only [hlt, if_true]
    · simp only [Bool.not_eq_true] at hlt
      simp only [hlt, Bool.false_eq_true, if_false]
      simp [dtLt, generate_fixed_time]

/-- C6 (counterexample): the marker set of `_clean_message` is the Polish
locale's; the English `"Or:"` matches none of its patterns, so the input of
the claim is returned whole, not cut at the separator. -/
theorem english_marker_not_split :
    clean_message "Remember your book!\n\nOr: Don\x27t forget to read!".data =
      some "Remember your book!\n\nOr: Don\x27t forget to read!".data ∧
    "Remember your book!\n\nOr: Don\x27t forget to read!".data ≠
      "Remember your book!".data := by
  constructor
  · decide
  · decide

/-- C6 (amended): with the locale's marker `Lub:` in place of `Or:`, the
sanitizer splits at the earliest matching separator and keeps only the text
before it: `"Remember your book!\n\nLub: Don't forget to read!"` cleans to
`"Remember your book!"`. -/
theorem example_splitting_locale_marker :
    clean_message "Remember your book!\n\nLub: Don\x27t forget to read!".data =
      some "Remember your book!".data := by
  decide

/-- C7 (counterexample): sanitization is not idempotent.  For the input
below the first pass cuts at `"\n\nLub:"` and keeps a prefix that still
contains the marker `"Albo:"`; a second pass cuts again at `"\nAlbo:"`,
producing a strictly shorter result. -/
theorem sanitize_not_idempotent :
    clean_message "AAAAAAAAAA\nAlbo: BBBBBBBBBB\n\nLub: C".data =
      some "AAAAAAAAAA\nAlbo: BBBBBBBBBB".data ∧
    clean_message "AAAAAAAAAA\nAlbo: BBBBBBBBBB".data = some "AAAAAAAAAA".data ∧
    "AAAAAAAAAA".data ≠ "AAAAAAAAAA\nAlbo: BBBBBBBBBB".data := by
  refine ⟨by decide, by decide, by decide⟩

/-- C1: from an empty pending queue, three successful enqueues of distinct
valid (trimmed, non-empty) texts followed by three dequeues return the
texts in insertion order — strict FIFO. -/
theorem fifo_order (a b c ta tb tc : List Char)
    (hsa : strip a = a) (hsb : strip b = b) (hsc : strip c = c)
    (hna : a ≠ []) (hnb : b ≠ []) (hnc : c ≠ [])
    (hab : a ≠ b) (hac : a ≠ c) (hbc : b ≠ c) :
    (add_message false a ta ⟨some [], some []⟩).1 = true ∧
    (add_message false b tb (add_message false a ta ⟨some [], some []⟩).2).1 = true ∧
    (add_message false c tc
      (add_message false b tb (add_message false a ta ⟨some [], some []⟩).2).2).1 = true ∧
    (get_oldest_message false
      (add_message false c tc
        (add_message false b tb (add_message false a ta ⟨some [], some []⟩).2).2).2).1 =
      some a ∧
    (get_oldest_message false
      (get_oldest_message false
        (add_message false c tc
          (add_message false b tb (add_message false a ta ⟨some [], some []⟩).2).2).2).2).1 =
      some b ∧
    (get_oldest_message false
      (get_oldest_message false
        (get_oldest_message false
          (add_message false c tc
            (add_message false b tb
              (add_message false a ta ⟨some [], some []⟩).2).2).2).2).2).1 = some c := by
  have va : isValidEntry (RawEntry.entry a ta) = true := by
    have h : a.isEmpty = false := by
      cases a with
      | nil => exact absurd rfl hna
      | cons x xs => rfl
    simp [isValidEntry, hsa, h]
  have vb : isValidEntry (RawEntry.entry b tb) = true := by
    have h : b.isEmpty = false := by
      cases b with
      | nil => exact absurd rfl hnb
      | cons x xs => rfl
    simp [isValidEntry, hsb, h]
  have vc : isValidEntry (RawEntry.entry c tc) = true := by
    have h : c.isEmpty = false := by
      cases c with
      | nil => exact absurd rfl hnc
      | cons x xs => rfl
    simp [isValidEntry, hsc, h]
  have h1 : add_message false a ta ⟨some [], some []⟩ =
      (true, ⟨some [.entry a ta], some []⟩) := by
    simpa using add_message_ok a ta [] (some []) (by intro e he; simp at he) hsa hna
  have h2 : add_message false b tb ⟨some [.entry a ta], some []⟩ =
      (true, ⟨some [.entry a ta, .entry b tb], some []⟩) := by
    simpa using add_message_ok b tb [.entry a ta] (some [])
      (by
        intro e he
        simp only [List.mem_cons, List.not_mem_nil, or_false] at he
        subst he; exact va) hsb hnb
  have h3 : add_message false c tc ⟨some [.entry a ta, .entry b tb], some []⟩ =
      (true, ⟨some [.entry a ta, .entry b tb, .entry c tc], some []⟩) := by
    simpa using add_message_ok c tc [.entry a ta, .entry b tb] (some [])
      (by
        intro e he
        simp only [List.mem_cons, List.not_mem_nil, or_false] at he
        rcases he with rfl | rfl
        · exact va
        · exact vb) hsc hnc
  have h4 : get_oldest_message false ⟨some [.entry a ta, .entry b tb, .entry c tc], some []⟩ =
      (some a, ⟨some [.entry b tb, .entry c tc], some []⟩) := by
    exact get_oldest_ok a ta [.entry b tb, .entry c tc] (some [])
      (by
        intro e he
        simp only [List.mem_cons, List.not_mem_nil, or_false] at he
        rcases he with rfl | rfl
        · exact vb
        · exact vc) hsa hna
  have h5 : get_oldest_message false ⟨some [.entry b tb, .entry c tc], some []⟩ =
      (some b, ⟨some [.entry c tc], some []⟩) := by
    exact get_oldest_ok b tb [.entry c tc] (some [])
      (by
        intro e he
        simp only [List.mem_cons, List.not_mem_nil, or_false] at he
        subst he; exact vc) hsb hnb
  have h6 : get_oldest_message false ⟨some [.entry c tc], some []⟩ =
      (some c, ⟨some [], some []⟩) := by
    exact get_oldest_ok c tc [] (some []) (by intro e he; simp at he) hsc hnc
  rw [h1, h2, h3, h4, h5, h6]
  exact ⟨rfl, rfl, rfl, rfl, rfl, rfl⟩

/-- C1 witness: the FIFO property at the concrete texts "aa", "bb", "cc". -/
theorem fifo_order_witness :
    (add_message false "aa".data "t1".data ⟨some [], some []⟩).1 = true ∧
    (add_message false "bb".data "t2".data
      (add_message false "aa".data "t1".data ⟨some [], some []⟩).2).1 = true ∧
    (add_message false "cc".data "t3".data
      (add_message false "bb".data "t2".data
        (add_message false "aa".data "t1".data ⟨some [], some []⟩).2).2).1 = true ∧
    (get_oldest_message false
      (add_message false "cc".data "t3".data
        (add_message false "bb".data "t2".data
          (add_message false "aa".data "t1".data ⟨some [], some []⟩).2).2).2).1 =
      some "aa".data ∧
    (get_oldest_message false
      (get_oldest_message false
        (add_message false "cc".data "t3".data
          (add_message false "bb".data "t2".data
            (add_message false "aa".data "t1".data ⟨some [], some []⟩).2).2).2).2).1 =
      some "bb".data ∧
    (get_oldest_message false
      (get_oldest_message false
        (get_oldest_message false
          (add_message false "cc".data "t3".data
            (add_message false "bb".data "t2".data
              (add_message false "aa".data "t1".data ⟨some [], some []⟩).2).2).2).2).2).1 =
      some "cc".data :=
  fifo_order "aa".data "bb".data "cc".data "t1".data "t2".data "t3".data
    (by decide) (by decide) (by decide) (by decide) (by decide) (by decide)
    (by decide) (by decide) (by decide)

/-- C2: dequeuing from an empty pending queue returns `none` and leaves the
count at 0; and every message a dequeue does return is non-empty after
trimming (indeed already trimmed) — malformed entries are never surfaced,
for any store health and any state. -/
theorem dequeue_contract :
    (∀ st : CMState, st.cacheFile = some [] →
      get_oldest_message false st = (none, st) ∧
      get_cache_count false st = Except.ok (0, st)) ∧
    (∀ (wf : Bool) (st : CMState) (m : List Char) (st' : CMState),
      get_oldest_message wf st = (some m, st') → strip m ≠ [] ∧ strip m = m) := by
  constructor
  · intro st hc
    obtain ⟨cf, sf⟩ := st
    simp only at hc
    subst hc
    exact ⟨rfl, rfl⟩
  · intro wf st m st' h
    exact get_oldest_aux_some wf (cacheLenBound st + 1) st m st' h

/-- C2 witness: the empty-queue contract on an empty store, and the
trimmed-non-empty guarantee at a concrete dequeued message. -/
theorem dequeue_contract_witness :
    (get_oldest_message false ⟨some [], some []⟩ = (none, ⟨some [], some []⟩) ∧
      get_cache_count false ⟨some [], some []⟩ = Except.ok (0, ⟨some [], some []⟩)) ∧
    strip "hi".data ≠ [] :=
  ⟨dequeue_contract.1 ⟨some [], some []⟩ rfl,
   (dequeue_contract.2 false ⟨some [RawEntry.entry "hi".data "t".data], some []⟩
      "hi".data ⟨some [], some []⟩ (by decide)).1⟩

/-- C5: with a transient-indicator failure on attempts 1 and 2 and success
on attempt 3 (`max_retries ≥ 3`), `generate_message` returns the sanitized
result after exactly 3 attempts, sleeping 2 then 4 seconds
(`2^(attempt+1)`); a non-transient error propagates immediately with no
sleep and no further attempt, as does a transient error on the final
attempt. -/
theorem retry_backoff :
    (∀ (calls : Nat → CallResult) (max_retries : Nat) (e0 e1 raw m : List Char),
      3 ≤ max_retries →
      calls 0 = .exn e0 → is_capacity_error e0 = true →
      calls 1 = .exn e1 → is_capacity_error e1 = true →
      calls 2 = .ok raw → raw ≠ [] → clean_message raw = some m →
      generate_message calls max_retries = ⟨.ok (some m), [2, 4], 3⟩) ∧
    (∀ (calls : Nat → CallResult) (max_retries : Nat) (e : List Char),
      1 ≤ max_retries → calls 0 = .exn e → is_capacity_error e = false →
      generate_message calls max_retries = ⟨.error e, [], 1⟩) ∧
    (∀ (calls : Nat → CallResult) (e : List Char),
      calls 0 = .exn e → is_capacity_error e = true →
      generate_message calls 1 = ⟨.error e, [], 1⟩) := by
  refine ⟨?_, ?_, ?_⟩
  · intro calls max_retries e0 e1 raw m hmr hc0 hcap0 hc1 hcap1 hc2 hraw hm
    obtain ⟨k, rfl⟩ : ∃ k, max_retries = k + 3 := ⟨max_retries - 3, by omega⟩
    have hre : raw.isEmpty = false := by
      cases raw with
      | nil => exact absurd rfl hraw
      | cons x xs => rfl
    have hd0 : decide (0 < k + 2) = true := by
      rw [decide_eq_true_eq]; omega
    have hd1 : decide (1 < k + 2) = true := by
      rw [decide_eq_true_eq]; omega
    unfold generate_message
    simp only [generate_message_go]
    norm_num [hc0, hc1, hc2, hre, hm, hcap0, hcap1, hd0, hd1]
  · intro calls max_retries e hmr hc0 hcap0
    obtain ⟨k, rfl⟩ : ∃ k, max_retries = k + 1 := ⟨max_retries - 1, by omega⟩
    simp only [generate_message, generate_message_go, hc0, hcap0, Bool.false_and,
      Bool.false_eq_true, if_false]
  · intro calls e hc0 hcap0
    simp only [generate_message, generate_message_go, hc0, hcap0]
    norm_num

/-- C5 witness: the concrete traces — 503 then rate-limit then success in 3
attempts sleeping [2, 4]; an immediate non-transient failure; a transient
failure with a single allowed attempt. -/
theorem retry_backoff_witness :
    generate_message demoCalls 3 = ⟨.ok (some "abcdefghij".data), [2, 4], 3⟩ ∧
    generate_message demoCallsBad 3 = ⟨.error "invalid api key".data, [], 1⟩ ∧
    generate_message demoCalls 1 = ⟨.error "Error 503".data, [], 1⟩ :=
  ⟨retry_backoff.1 demoCalls 3 "Error 503".data "rate limit exceeded".data
      "abcdefghij".data "abcdefghij".data (by decide) rfl (by decide) rfl (by decide)
      rfl (by decide) (by decide),
   retry_backoff.2.1 demoCallsBad 3 "invalid api key".data (by decide) rfl (by decide),
   retry_backoff.2.2 demoCalls "Error 503".data rfl (by decide)⟩

/-- A delimiter substitution whose opening character never occurs in the
text is the identity. -/
theorem subDelimF_not_mem (c0 : Char) (d' : List Char) :
    ∀ (fuel : Nat) (s : List Char), c0 ∉ s → subDelimF (c0 :: d') fuel s = s := by
  intro fuel
  induction fuel with
  | zero => intro s _; rfl
  | succ fuel ih =>
    intro s h
    cases s with
    | nil => rfl
    | cons c cs =>
      have hc : c0 ≠ c := fun he => h (he ▸ List.mem_cons_self ..)
      have hsw : startsWithL (c0 :: d') (c :: cs) = false := by
        simp [startsWithL, hc]
      unfold subDelimF
      dsimp only
      rw [hsw]
      simp only [Bool.false_eq_true, if_false]
      rw [ih cs (fun hm => h (List.mem_cons_of_mem _ hm))]

theorem subDelim_not_mem {c0 : Char} {d' s : List Char} (h : c0 ∉ s) :
    subDelim (c0 :: d') s = s :=
  subDelimF_not_mem c0 d' s.length s h

/-- The over-length branch returns either its (stripped) input or a freshly
stripped sentence, so `longCleanup` preserves strippedness. -/
theorem strip_longCleanup (u : List Char) (hu : strip u = u) :
    strip (longCleanup u) = longCleanup u := by
  unfold longCleanup
  by_cases hl : 500 < u.length
  · rw [if_pos hl]
    cases hs : sentSplit u with
    | nil => exact hu
    | cons s0 rest => exact strip_strip _
  · rw [if_neg hl]
    exact hu

/-- A sanitized output is already stripped and at least 10 characters long. -/
theorem clean_message_some {x y : List Char} (h : clean_message x = some y) :
    strip y = y ∧ 10 ≤ y.length := by
  unfold clean_message at h
  by_cases hx : x.isEmpty = true
  · rw [if_pos hx] at h
    simp at h
  · rw [if_neg hx] at h
    dsimp only at h
    by_cases hc : ((longCleanup (strip (stripLeadingBullet (subDelim [Char.ofNat 96]
        (subDelim ['*'] (subDelim ['*', '*']
          (if has_examples (strip x) = true then splitFirstVariant separators (strip x)
           else strip x))))))).isEmpty
        || decide ((longCleanup (strip (stripLeadingBullet (subDelim [Char.ofNat 96]
        (subDelim ['*'] (subDelim ['*', '*']
          (if has_examples (strip x) = true then splitFirstVariant separators (strip x)
           else strip x))))))).length < 10)) = true
    · rw [if_pos hc] at h
      simp at h
    · rw [if_neg hc] at h
      simp only [Option.some.injEq] at h
      subst h
      simp only [Bool.or_eq_true, not_or, Bool.not_eq_true, decide_eq_false_iff_not,
        not_lt] at hc
      exact ⟨strip_longCleanup _ (strip_strip _), hc.2⟩

/-- C7 (amended): sanitization is idempotent on every sanitized output that
contains no example-marker phrase, no markdown emphasis character, no
leading list marker, and at most 500 characters; in general (see the
counterexample) a second pass can cut the text further at a marker that
survived the first split. -/
theorem clean_message_conditional_idempotent (x y : List Char)
    (hx : clean_message x = some y)
    (hpat : has_examples y = false)
    (hstar : '*' ∉ y)
    (htick : Char.ofNat 96 ∉ y)
    (hbul : stripLeadingBullet y = y)
    (hlen : y.length ≤ 500) :
    clean_message y = some y := by
  obtain ⟨hstrip, hlen10⟩ := clean_message_some hx
  have hne : y ≠ [] := by
    intro he
    rw [he] at hlen10
    simp at hlen10
  have hie : y.isEmpty = false := by
    cases y with
    | nil => exact absurd rfl hne
    | cons _ _ => rfl
  have hlc : longCleanup y = y := by
    unfold longCleanup
    rw [if_neg (by omega)]
  have hd10 : decide (y.length < 10) = false := by
    simp only [decide_eq_false_iff_not, not_lt]
    exact hlen10
  unfold clean_message
  dsimp only
  rw [hstrip, hie, hpat]
  simp only [Bool.false_eq_true, if_false]
  rw [subDelim_not_mem hstar, subDelim_not_mem hstar, subDelim_not_mem htick, hbul,
    hstrip, hlc, hie, hd10]
  simp

/-- C7 amended witness: a plain stripped text is a fixed point of the
sanitizer. -/
theorem clean_message_conditional_idempotent_witness :
    clean_message "hello world".data = some "hello world".data :=
  clean_message_conditional_idempotent "  hello world  ".data "hello world".data
    (by decide) (by decide) (by decide) (by decide) (by decide) (by decide)

end AIRem

